import Mathlib

/-!
Formal model of the CAD120 data reader (`cad120_data_reader.py`).

The Python source is shallowly embedded: per-line parsing loops become
structural recursions over lists of pre-tokenized fields, the mutable
dictionaries (`frame_data`, `world_trace.trace`, ...) become association
lists threaded through the recursion, Python floats become exact rationals,
and runtime failures (`UnboundLocalError`, `KeyError`, `ValueError`) become
`Except` errors.
-/

namespace CAD120

/-- Errors a Python run of the reader can raise at the modelled points. -/
inductive PyErr where
  | unboundLocal
  | keyError
deriving DecidableEq, Repr

/-- Association-list lookup, mirroring Python `d[k]` /`d.get(k)` on a dict
whose keys are unique. -/
def getA {α β : Type} [DecidableEq α] : List (α × β) → α → Option β
  | [], _ => none
  | (a', b') :: xs, a => if a' = a then some b' else getA xs a

/-- Association-list store, mirroring Python `d[k] = v`: replaces the value
if the key is present, appends the pair otherwise (dict insertion order). -/
def setA {α β : Type} [DecidableEq α] : List (α × β) → α → β → List (α × β)
  | [], a, b => [(a, b)]
  | (a', b') :: xs, a, b => if a' = a then (a, b) :: xs else (a', b') :: setA xs a b

/-! ### Sequence Expander (`__make_sub_sequences`) -/

/-- One entry of a `durations` list as built by `__read_sub_times`:
`{"sub_activity": ..., "start_frame": ..., "end_frame": ..., "duration_frames": ...}`. -/
structure Segment where
  sub_activity : String
  start_frame : Int
  end_frame : Int
  duration_frames : Int
deriving DecidableEq, Repr

/-- The per-entry body of `__make_sub_sequences`: walk the `durations` list
with `e_frame` initialized to `0`; raise `ValueError` when a segment's
`start_frame` equals the tracked `e_frame` (the previous segment's
`end_frame`); otherwise set `e_frame` to the segment's `end_frame` and append
`duration_frames` copies of its label (Python list repetition yields nothing
for a non-positive count, hence `Int.toNat`). -/
def makeSubSeq : List Segment → Int → Except Unit (List String)
  | [], _ => .ok []
  | d :: ds, e_frame =>
    if d.start_frame = e_frame then .error ()
    else
      match makeSubSeq ds d.end_frame with
      | .error e => .error e
      | .ok rest => .ok (List.replicate d.duration_frames.toNat d.sub_activity ++ rest)

/-! ### Skeleton projection (`parse_skeleton_data`, lines 519-530) -/

/-- Python 2 `int(round(v))`: round to nearest, ties away from zero. -/
def pyRound (q : ℚ) : ℤ := if 0 ≤ q then ⌊q + 1/2⌋ else ⌈q - 1/2⌉

/-- Projection `x_2D` exactly as written in `parse_skeleton_data`:
`int(round((156.8584456124928*2) + (0.0976862095248*3)*x - (0.0006444357104*3)*y + (0.0015715946682*3)*z))`,
read over exact rationals. -/
def x2D_code (x y z : ℚ) : ℤ :=
  pyRound ((156.8584456124928 * 2) + (0.0976862095248 * 3) * x
    - (0.0006444357104 * 3) * y + (0.0015715946682 * 3) * z)

/-- Projection `y_2D` exactly as written in `parse_skeleton_data`. -/
def y2D_code (x y z : ℚ) : ℤ :=
  pyRound ((125.5357201011431 * 2) + (0.0002153447766 * 3) * x
    - (0.1184874093530 * 3) * y - (0.0022134485957 * 3) * z)

/-- The specification's projection formula with the fused constants, stated
for comparison with `x2D_code`. -/
def x2D_spec (x y z : ℚ) : ℤ :=
  pyRound (313.7168912249856 + 0.2930586285744 * x
    - 0.0019333071312 * y + 0.0047147840046 * z)

/-- The specification's projection formula with the fused constants, stated
for comparison with `y2D_code`. -/
def y2D_spec (x y z : ℚ) : ℤ :=
  pyRound (251.0714402022862 + 0.0006460343298 * x
    - 0.3554622280590 * y - 0.0066403457871 * z)

/-! ### Object Track Parser (`get_objects_annotation_data`) -/

/-- Bounding box `(minx, miny, maxx, maxy)` as parsed by `map(int, fields[:6])`. -/
abbrev Bbox := Int × Int × Int × Int

/-- The mutable `frame_data` dict: frame number to (object key to bbox). -/
abbrev FrameData := List (Int × List (String × Bbox))

/-- Python `frame_data[frame][obj_id_str] = bbox` where `frame_data[frame]` already
exists (the loop ensures it with `frame_data[frame] = {}` first). -/
def setObj (fd : FrameData) (frame : Int) (key : String) (b : Bbox) : FrameData :=
  match getA fd frame with
  | some m => setA fd frame (setA m key b)
  | none => setA fd frame (setA [] key b)

/-- Python `obj_types.get(obj_id, 'unknown') + '_' + repr(obj_id)`. -/
def objIdStr (obj_types : List (Int × String)) (obj_id : Int) : String :=
  ((getA obj_types obj_id).getD "unknown") ++ "_" ++ toString obj_id

/-- The per-file line loop of `get_objects_annotation_data`. A line is the
list of its comma-separated fields, already converted to integers (the six
trailing STIP fields are parsed as floats by the source and never used).
Lines whose field count is not 12 are skipped; a frame before `start_frame`
is skipped; a frame after `end_frame` stops the file's loop. The local
variable `last_pos_frame` starts unassigned (`none`); evaluating the guard
`last_pos_frame != 1` while it is unassigned raises `UnboundLocalError`, and
`frame_data[last_pos_frame][obj_id_str]` raises `KeyError` when absent. -/
def objLinesLoop (obj_types : List (Int × String)) (start_frame end_frame : Option Int) :
    List (List Int) → FrameData → Option Int → Except PyErr (FrameData × Option Int)
  | [], fd, last_pos_frame => .ok (fd, last_pos_frame)
  | fields :: rest, fd, last_pos_frame =>
    if fields.length ≠ 12 then
      objLinesLoop obj_types start_frame end_frame rest fd last_pos_frame
    else
      let frame := fields.getD 0 0
      let obj_id := fields.getD 1 0
      let box : Bbox := (fields.getD 2 0, fields.getD 3 0, fields.getD 4 0, fields.getD 5 0)
      if (match start_frame with | some s => decide (frame < s) | none => false) then
        objLinesLoop obj_types start_frame end_frame rest fd last_pos_frame
      else if (match end_frame with | some e => decide (e < frame) | none => false) then
        .ok (fd, last_pos_frame)
      else
        let key := objIdStr obj_types obj_id
        let fd := if (getA fd frame).isSome then fd else setA fd frame []
        let first_frame : Int := match start_frame with | some s => (frame - s) + 1 | none => 1
        let last_pos_frame :=
          if first_frame = 1 ∧ box = ((0 : Int), 0, 0, 0) then some 1 else last_pos_frame
        if box ≠ ((0 : Int), 0, 0, 0) then
          objLinesLoop obj_types start_frame end_frame rest (setObj fd frame key box) (some frame)
        else
          match last_pos_frame with
          | none => .error .unboundLocal
          | some lpf =>
            if lpf ≠ 1 then
              match getA fd lpf with
              | none => .error .keyError
              | some m =>
                match getA m key with
                | none => .error .keyError
                | some b =>
                  objLinesLoop obj_types start_frame end_frame rest (setObj fd frame key b)
                    (some lpf)
            else
              objLinesLoop obj_types start_frame end_frame rest fd (some lpf)

/-- Function `get_objects_annotation_data` with the directory abstracted to its data:
`obj_types` is the lookup built from the `activityLabel.txt` line of the
video, and `files` is the field-tokenized content of each `{video_id}_obj*`
file in directory order. `frame_data` and the local `last_pos_frame` persist
across files, as in the source. -/
def get_objects_annotation_data (obj_types : List (Int × String))
    (start_frame end_frame : Option Int) (files : List (List (List Int))) :
    Except PyErr FrameData :=
  (files.foldlM
    (fun (st : FrameData × Option Int) lines =>
      objLinesLoop obj_types start_frame end_frame lines st.1 st.2)
    ([], none)).map (·.1)

/-! ### Skeleton Track Parser (`parse_skeleton_data`) -/

/-- Mapping `joints_enum` from joint number to joint name. -/
def joints_enum : ℕ → String
  | 1 => "H" | 2 => "N" | 3 => "T" | 4 => "LS" | 5 => "LE" | 6 => "RS" | 7 => "RE"
  | 8 => "LHIP" | 9 => "LK" | 10 => "RHIP" | 11 => "RK" | 12 => "LH" | 13 => "RH"
  | 14 => "LF" | 15 => "RF" | _ => ""

/-- The per-line joint walk of `parse_skeleton_data`: `position` starts at 1;
for joint `i` from 1 to 15, when `i <= 11` the 10 orientation values are
skipped first (`position += 10`), then `fields[position:position+3]` is the
3D position, the 2D projection is computed from it, and `position += 4`
steps over the position triple and the discarded confidence. The first
argument of the recursion is the count of joints still to process. -/
def jointsLoop (fields : List ℚ) : ℕ → ℕ → ℕ → List (String × (ℚ × ℚ × ℚ) × (ℤ × ℤ))
  | 0, _, _ => []
  | n + 1, i, position =>
    let position := if i ≤ 11 then position + 10 else position
    let x := fields.getD position 0
    let y := fields.getD (position + 1) 0
    let z := fields.getD (position + 2) 0
    (joints_enum i, (x, y, z), (x2D_code x y z, y2D_code x y z)) ::
      jointsLoop fields n (i + 1) (position + 4)

/-- One line of `parse_skeleton_data`: `fields[0]` is the frame, the joint
walk starts at joint 1 with `position = 1`. -/
def parse_skeleton_line (fields : List ℚ) : List (String × (ℚ × ℚ × ℚ) × (ℤ × ℤ)) :=
  jointsLoop fields 15 1 1

/-- The record retained for one joint whose 3D position sits at
`fields[base:base+3]`. -/
def jointAt (fields : List ℚ) (name : String) (base : ℕ) :
    String × (ℚ × ℚ × ℚ) × (ℤ × ℤ) :=
  (name, (fields.getD base 0, fields.getD (base + 1) 0, fields.getD (base + 2) 0),
    (x2D_code (fields.getD base 0) (fields.getD (base + 1) 0) (fields.getD (base + 2) 0),
     y2D_code (fields.getD base 0) (fields.getD (base + 1) 0) (fields.getD (base + 2) 0)))

/-- The field layout asserted by the specification, stated for comparison
with `parse_skeleton_line`: each of the first 11 joints occupies 10 fields
(3D position first, then 7 orientation values), each of the last 4 joints
occupies 4 fields (3D position then confidence). -/
def skeletonSpecLayout (fields : List ℚ) : List (String × (ℚ × ℚ × ℚ)) :=
  (List.range 15).map fun j =>
    let base := if j + 1 ≤ 11 then 1 + 10 * j else 1 + 110 + 4 * (j - 11)
    (joints_enum (j + 1), (fields.getD base 0, fields.getD (base + 1) 0, fields.getD (base + 2) 0))

/-! ### Segmentation Builder (`__read_sub_times`) -/

/-- One well-formed line of a `labeling.txt` file:
`video_id, start_frame, end_frame, sub_activity_label, ...`. -/
structure LabelLine where
  video_id : String
  start_frame : Int
  end_frame : Int
  sub_activity : String
deriving DecidableEq, Repr

/-- One entry of `self.sub_time_segmentation` after flattening. -/
structure SegEntry where
  subject_name : String
  super_name : String
  video_name : String
  durations : List Segment
deriving DecidableEq, Repr

/-- The line loop of `__read_sub_times` for one `labeling.txt` file: group
segments by `video_id` (appending in line order), computing
`duration_frames = end_frame - start_frame + 1`; with an `episode` filter, a
line whose video is not active stops the file's loop. -/
def readPairLines (episode : Option (List String)) :
    List LabelLine → List (String × List Segment) → List (String × List Segment)
  | [], m => m
  | line :: rest, m =>
    if (match episode with | some active => decide (line.video_id ∉ active) | none => false) then m
    else
      let d : Segment := ⟨line.sub_activity, line.start_frame, line.end_frame,
        line.end_frame - line.start_frame + 1⟩
      let m := match getA m line.video_id with
        | some l => setA m line.video_id (l ++ [d])
        | none => setA m line.video_id [d]
      readPairLines episode rest m

/-- The flattened entries one `(subject, activity)` pair contributes to
`self.sub_time_segmentation`: a missing `labeling.txt` (`IOError`) only
prints a warning and contributes nothing. -/
def pairEntries (files : String → String → Option (List LabelLine))
    (episode : Option (List String)) (subj sup : String) : List SegEntry :=
  match files subj sup with
  | none => []
  | some lines => (readPairLines episode lines []).map fun p => ⟨subj, sup, p.1, p.2⟩

/-- Builder `__read_sub_times`: iterate the active subjects and activities, read each
pair's `labeling.txt` (abstracted by `files`), and flatten the nested dict
into the `sub_time_segmentation` entry list. -/
def read_sub_times (files : String → String → Option (List LabelLine))
    (subjects supers : List String) (episode : Option (List String)) : List SegEntry :=
  subjects.flatMap fun subj => supers.flatMap fun sup => pairEntries files episode subj sup

/-! ### Skeleton trace query (`world_skeleton_trace_to_dict`) -/

/-- Modelled from the spec: the coordinates of one entity state of the
external `qsrlib_io.world_trace.Object_State` (only `x` and `y` are read by
`world_skeleton_trace_to_dict`). -/
structure ObjState where
  x : ℚ
  y : ℚ
deriving DecidableEq, Repr

/-- Modelled from the spec: one timestamp's `world_state.objects` map of the
external `World_Trace` (entity name to state). -/
abbrev WorldState := List (String × ObjState)

/-- Modelled from the spec: the external `World_Trace.trace` map, timestamp
to world state, with `get_sorted_timestamps` returning the keys in their
stored (sorted) order. -/
structure WorldTraceM where
  trace : List (String × WorldState)
deriving DecidableEq, Repr

/-- The `except KeyError` handler body of `world_skeleton_trace_to_dict` for
joint `s` at timestamp index `i`, timestamp `t`: look the joint up in
`world_trace.trace[t]`; on a miss, fetch
`world_trace.trace[sorted_timestamps[i-1]].objects[s]` (Python index `-1`
wraps to the last timestamp when `i = 0`) and write it into the trace's
state map before returning it. -/
def fillJoint (wt : List (String × WorldState)) (ts : List String) (i : ℕ)
    (t s : String) : Except PyErr (List (String × WorldState) × ObjState) :=
  match getA wt t with
  | none => .error .keyError
  | some ws =>
    match getA ws s with
    | some st => .ok (wt, st)
    | none =>
      match (if i = 0 then ts.getLast? else ts[i - 1]?) with
      | none => .error .keyError
      | some pt =>
        match getA wt pt with
        | none => .error .keyError
        | some pws =>
          match getA pws s with
          | none => .error .keyError
          | some pst => .ok (setA wt t (setA ws s pst), pst)

/-- The inner loop of `world_skeleton_trace_to_dict` over the skeleton pass
filter at one timestamp, appending `(x, y)` to `ret[s]`. -/
def jointPass (ts : List String) (i : ℕ) (t : String) :
    List String → List (String × WorldState) → List (String × List (ℚ × ℚ)) →
    Except PyErr (List (String × WorldState) × List (String × List (ℚ × ℚ)))
  | [], wt, ret => .ok (wt, ret)
  | s :: ss, wt, ret =>
    match fillJoint wt ts i t s with
    | .error e => .error e
    | .ok (wt', st) =>
      let ret' := match getA ret s with
        | some l => setA ret s (l ++ [(st.x, st.y)])
        | none => setA ret s [(st.x, st.y)]
      jointPass ts i t ss wt' ret'

/-- The outer loop of `world_skeleton_trace_to_dict` over
`range(len(sorted_timestamps))`, carried as the remaining timestamp suffix
with its starting index. -/
def tsLoop (pass_filter : List String) (ts : List String) :
    ℕ → List String → List (String × WorldState) → List (String × List (ℚ × ℚ)) →
    Except PyErr (List (String × WorldState) × List (String × List (ℚ × ℚ)))
  | _, [], wt, ret => .ok (wt, ret)
  | i, t :: rest, wt, ret =>
    match jointPass ts i t pass_filter wt ret with
    | .error e => .error e
    | .ok (wt', ret') => tsLoop pass_filter ts (i + 1) rest wt' ret'

/-- Query `world_skeleton_trace_to_dict` for one trace: initialize `ret[s] = []`
for each pass-filter joint, walk the sorted timestamps, and return both the
answer dict and the (mutated) trace it leaves behind in
`self.world_traces[id]`. -/
def world_skeleton_trace_to_dict (pass_filter : List String) (wt : WorldTraceM) :
    Except PyErr (WorldTraceM × List (String × List (ℚ × ℚ))) :=
  let ts := wt.trace.map Prod.fst
  let ret0 := pass_filter.map fun s => (s, ([] : List (ℚ × ℚ)))
  (tsLoop pass_filter ts 0 ts wt.trace ret0).map fun p => (⟨p.1⟩, p.2)

/-! ### Key round trip (`make_key` / `break_key`)

Python strings are embedded as their character lists; the split and join
below are Python's `str.split` / `str.join` for the one-character
delimiter `"_"`. -/

/-- Python `key.split("_")`: never returns an empty list; empty words are
kept. -/
def splitU : List Char → List (List Char)
  | [] => [[]]
  | c :: cs =>
    match splitU cs with
    | [] => [[]]
    | w :: ws => if c = '_' then [] :: w :: ws else (c :: w) :: ws

/-- Python `"_".join(words)`. -/
def joinU : List (List Char) → List Char
  | [] => []
  | [w] => w
  | w :: ws => w ++ '_' :: joinU ws

/-- Python `make_key`: `"_".join([subject_name, super_name, video_name])`. -/
def make_key (subject_name super_name video_name : List Char) : List Char :=
  joinU [subject_name, super_name, video_name]

/-- Python `break_key`: split on `"_"`; the first token is the subject, the last is
the video id, and the tokens between, re-joined, are the activity name. -/
def break_key (key : List Char) : List Char × List Char × List Char :=
  let s := splitU key
  (s.headD [], joinU ((s.drop 1).dropLast), s.getLastD [])

/-- Lookup of one entity's state at one timestamp of a (modelled) trace. -/
def lookup2 (wt : List (String × WorldState)) (t s : String) : Option ObjState :=
  match getA wt t with
  | none => none
  | some ws => getA ws s

/-! ## Theorems -/

/-- Claim C9: on an input with a frame-range start, whose first well-formed
in-range detection line carries an all-zero bbox at a frame with
`(frame - start_frame) + 1 ≠ 1`, `get_objects_annotation_data` evaluates the
guard `last_pos_frame != 1` with `last_pos_frame` unassigned and raises
`UnboundLocalError`: the parser is not total over well-formed inputs. -/
theorem obj_parser_reads_unbound_local :
    get_objects_annotation_data [] (some 5) none
      [[[6, 1, 0, 0, 0, 0, 0, 0, 0, 0, 0, 0]]] = .error .unboundLocal := rfl

/-- Claim C1: evaluation of `get_objects_annotation_data` with no frame-range
filter on the claim's own scenario. The first file (frame 2 bbox
`(10,10,20,20)`, frame 3 bbox `(0,0,0,0)`) produces *no* frame-3 entry for
the object — the last known non-zero bbox is **not** carried forward,
because with `start_frame = None` every all-zero line first resets
`last_pos_frame` to `1`, making the carry-forward branch unreachable. The
second file (frame 1 bbox `(0,0,0,0)`, no prior bbox) produces no frame-1
entry, as the claim states. -/
theorem obj_occlusion_not_carried_forward :
    (get_objects_annotation_data [] none none
        [[[2, 1, 10, 10, 20, 20, 0, 0, 0, 0, 0, 0],
          [3, 1, 0, 0, 0, 0, 0, 0, 0, 0, 0, 0]]] =
      .ok [(2, [("unknown_1", (10, 10, 20, 20))]), (3, [])]) ∧
    (get_objects_annotation_data [] none none
        [[[1, 1, 0, 0, 0, 0, 0, 0, 0, 0, 0, 0]]] = .ok [(1, [])]) :=
  ⟨rfl, rfl⟩

/-- Claim C2, counterexample: for the segments `[(1,5),(7,8)]` — the second
starting at frame 7 after the first ends at frame 5 — `__make_sub_sequences`
does **not** raise: it returns the 7-label expansion. -/
theorem gap_segments_not_rejected :
    makeSubSeq [⟨"reaching", 1, 5, 5⟩, ⟨"moving", 7, 8, 2⟩] 0 =
      .ok ["reaching", "reaching", "reaching", "reaching", "reaching",
        "moving", "moving"] := rfl

/-- Claim C2, amended: `__make_sub_sequences` raises exactly when some
segment's `start_frame` equals the *previous* segment's `end_frame` (the
first segment being compared against the initial `e_frame = 0`); a gap
between consecutive segments is not detected. -/
theorem makeSubSeq_error_iff (ds : List Segment) (e0 : Int) :
    makeSubSeq ds e0 = .error () ↔
      ((∃ d₀, ds.head? = some d₀ ∧ d₀.start_frame = e0) ∨
        ∃ p ∈ ds.zip ds.tail, (p.2).start_frame = (p.1).end_frame) := by
  induction ds generalizing e0 with
  | nil => simp [makeSubSeq]
  | cons d ds ih =>
    by_cases h : d.start_frame = e0
    · simp [makeSubSeq, h]
    · have hrec : makeSubSeq (d :: ds) e0 = .error () ↔
          makeSubSeq ds d.end_frame = .error () := by
        simp only [makeSubSeq, if_neg h]
        cases hm : makeSubSeq ds d.end_frame with
        | error e => cases e; simp
        | ok l => simp
      rw [hrec, ih]
      cases ds with
      | nil => simp [h]
      | cons d' ds' => simp [h, List.zip_cons_cons]

/-- Claim C4: the 2D projection computed by `parse_skeleton_data` agrees, as
an exact (rational-arithmetic) function of `(x, y, z)`, with the
specification's affine formula with the fused constants; in particular it is
a pure deterministic function of the 3D position. -/
theorem skeleton_projection_matches_spec (x y z : ℚ) :
    x2D_code x y z = x2D_spec x y z ∧ y2D_code x y z = y2D_spec x y z := by
  constructor
  · unfold x2D_code x2D_spec
    congr 1
    ring_nf
  · unfold y2D_code y2D_spec
    congr 1
    ring_nf

/-- Claim C7, counterexample: on the line whose field at index `k` is the
rational `k`, the walk of `parse_skeleton_data` does not retain the 3D
positions that the claimed layout (10 fields per joint for the first 11
joints) assigns: the code reads joint `H` at indices 11-13, the claimed
layout puts it at indices 1-3. -/
theorem skeleton_layout_not_ten_fields :
    ((parse_skeleton_line ((List.range 171).map fun n => (n : ℚ))).map
        fun p => (p.1, p.2.1)) ≠
      skeletonSpecLayout ((List.range 171).map fun n => (n : ℚ)) := by
  decide

/-- Claim C7, amended: `parse_skeleton_data` walks the 15 joints in order
consuming **14** fields per joint for the first 11 joints (10 orientation
values skipped, the 3D position read, one confidence value skipped) and 4
fields per joint for the remaining 4 (3D position plus a discarded
confidence), retaining only the positions: the joint records sit at bases
11, 25, 39, ..., 151 (stride 14) and then 155, 159, 163, 167 (stride 4). -/
theorem parse_skeleton_line_layout (fields : List ℚ) :
    parse_skeleton_line fields =
      [jointAt fields "H" 11, jointAt fields "N" 25, jointAt fields "T" 39,
        jointAt fields "LS" 53, jointAt fields "LE" 67, jointAt fields "RS" 81,
        jointAt fields "RE" 95, jointAt fields "LHIP" 109, jointAt fields "LK" 123,
        jointAt fields "RHIP" 137, jointAt fields "RK" 151, jointAt fields "LH" 155,
        jointAt fields "RH" 159, jointAt fields "LF" 163, jointAt fields "RF" 167] := rfl

/-- When no segment's start equals the running `e_frame`, `__make_sub_sequences`
succeeds and returns the concatenated label repetitions. -/
theorem makeSubSeq_ok_of_no_overlap (ds : List Segment) (e0 : Int)
    (hhead : ∀ d₀, ds.head? = some d₀ → d₀.start_frame ≠ e0)
    (hcontig : ∀ p ∈ ds.zip ds.tail, (p.2).start_frame = (p.1).end_frame + 1) :
    makeSubSeq ds e0 =
      .ok (ds.flatMap fun d => List.replicate d.duration_frames.toNat d.sub_activity) := by
  induction ds generalizing e0 with
  | nil => simp [makeSubSeq]
  | cons d ds ih =>
    have h1 : d.start_frame ≠ e0 := hhead d (by simp)
    have h2 : makeSubSeq ds d.end_frame =
        .ok (ds.flatMap fun d => List.replicate d.duration_frames.toNat d.sub_activity) := by
      refine ih d.end_frame ?_ ?_
      · intro d₀ hd₀
        cases ds with
        | nil => simp at hd₀
        | cons d' ds' =>
          have hfirst := hcontig (d, d') (by simp [List.zip_cons_cons])
          have hd : d₀ = d' := by simpa using hd₀.symm
          rw [hd]
          simp only at hfirst
          omega
      · intro p hp
        refine hcontig p ?_
        cases ds with
        | nil => simp at hp
        | cons d' ds' => simp [List.zip_cons_cons]; right; exact hp
    simp [makeSubSeq, if_neg h1, h2]

/-- The length of the concatenated expansion of a contiguous, valid segment
list telescopes to `end_frame` of the last segment minus `start_frame` of
the first plus one. -/
theorem expansion_length (ds : List Segment) (hne : ds ≠ [])
    (hvalid : ∀ d ∈ ds, d.start_frame ≤ d.end_frame ∧
      d.duration_frames = d.end_frame - d.start_frame + 1)
    (hcontig : ∀ p ∈ ds.zip ds.tail, (p.2).start_frame = (p.1).end_frame + 1) :
    (((ds.flatMap fun d => List.replicate d.duration_frames.toNat d.sub_activity).length : Int)) =
      (ds.getLast hne).end_frame - (ds.head hne).start_frame + 1 := by
  induction ds with
  | nil => exact absurd rfl hne
  | cons d ds ih =>
    cases ds with
    | nil =>
      obtain ⟨hle, hdur⟩ := hvalid d (by simp)
      simp [List.flatMap, List.getLast, List.head]
      omega
    | cons d' ds' =>
      have hne' : d' :: ds' ≠ [] := by simp
      have hlen := ih hne'
        (fun x hx => hvalid x (List.mem_cons_of_mem d hx))
        (fun p hp => hcontig p (by simp [List.zip_cons_cons]; right; exact hp))
      obtain ⟨hle, hdur⟩ := hvalid d (by simp)
      have hfirst := hcontig (d, d') (by simp [List.zip_cons_cons])
      have hlast : ((d :: d' :: ds').getLast hne) = ((d' :: ds').getLast hne') :=
        List.getLast_cons hne'
      rw [List.flatMap_cons, List.length_append, hlast]
      push_cast
      rw [hlen]
      simp only [List.head_cons] at hfirst ⊢
      have : (0 : Int) ≤ d.duration_frames := by omega
      rw [List.length_replicate, Int.toNat_of_nonneg this]
      omega

/-- Claim C3: for every valid contiguous segment list (1-based frames,
`start_frame ≤ end_frame`, `duration_frames = end_frame - start_frame + 1`,
each next segment starting right after the previous one ends),
`__make_sub_sequences` outputs the concatenation, in segment order, of each
segment's label repeated `duration_frames` times, and the total length is
`end_frame` of the last segment minus `start_frame` of the first plus one. -/
theorem makeSubSeq_contiguous_expansion (ds : List Segment) (hne : ds ≠ [])
    (hvalid : ∀ d ∈ ds, 0 < d.start_frame ∧ d.start_frame ≤ d.end_frame ∧
      d.duration_frames = d.end_frame - d.start_frame + 1)
    (hcontig : ∀ p ∈ ds.zip ds.tail, (p.2).start_frame = (p.1).end_frame + 1) :
    makeSubSeq ds 0 =
      .ok (ds.flatMap fun d => List.replicate d.duration_frames.toNat d.sub_activity) ∧
    (((ds.flatMap fun d =>
        List.replicate d.duration_frames.toNat d.sub_activity).length : Int)) =
      (ds.getLast hne).end_frame - (ds.head hne).start_frame + 1 := by
  have hok := makeSubSeq_ok_of_no_overlap ds 0
    (by
      intro d₀ hd₀
      have hmem : d₀ ∈ ds := by
        cases ds with
        | nil => simp at hd₀
        | cons d' ds' => simp at hd₀; subst hd₀; simp
      have := (hvalid d₀ hmem).1
      omega)
    hcontig
  exact ⟨hok,
    expansion_length ds hne (fun d hd => ⟨(hvalid d hd).2.1, (hvalid d hd).2.2⟩) hcontig⟩

/-- Witness for C3 at the claim's own scenario
`[(1,5,"reaching"), (6,8,"moving")]`: 5 + 3 = 8 labels. -/
theorem makeSubSeq_contiguous_expansion_witness :
    makeSubSeq [⟨"reaching", 1, 5, 5⟩, ⟨"moving", 6, 8, 3⟩] 0 =
      .ok ([(⟨"reaching", 1, 5, 5⟩ : Segment), ⟨"moving", 6, 8, 3⟩].flatMap
        fun d => List.replicate d.duration_frames.toNat d.sub_activity) ∧
    ((([(⟨"reaching", 1, 5, 5⟩ : Segment), ⟨"moving", 6, 8, 3⟩].flatMap
        fun d => List.replicate d.duration_frames.toNat d.sub_activity).length : Int)) =
      8 - 1 + 1 :=
  makeSubSeq_contiguous_expansion [⟨"reaching", 1, 5, 5⟩, ⟨"moving", 6, 8, 3⟩]
    (by decide) (by decide) (by decide)

/-- Python `key.split("_")` never returns an empty list. -/
theorem splitU_ne_nil : ∀ l : List Char, splitU l ≠ []
  | [] => by simp [splitU]
  | c :: cs => by
    cases h : splitU cs with
    | nil => simp [splitU, h]
    | cons w ws =>
      simp only [splitU, h]
      split <;> simp

/-- Splitting a word without the delimiter yields the singleton word. -/
theorem splitU_no_sep (l : List Char) (h : '_' ∉ l) : splitU l = [l] := by
  induction l with
  | nil => rfl
  | cons c cs ih =>
    simp only [List.mem_cons, not_or] at h
    have hc : ¬(c = '_') := fun hc => h.1 hc.symm
    simp [splitU, ih h.2, hc]

/-- Unfolding one character of the split. -/
theorem splitU_cons (c : Char) (cs w : List Char) (ws : List (List Char))
    (hw : splitU cs = w :: ws) :
    splitU (c :: cs) = if c = '_' then [] :: w :: ws else (c :: w) :: ws := by
  simp [splitU, hw]

/-- Python split distributes over a delimiter occurrence. -/
theorem splitU_append (x y : List Char) :
    splitU (x ++ '_' :: y) = splitU x ++ splitU y := by
  induction x with
  | nil =>
    obtain ⟨w, ws, hw⟩ := List.exists_cons_of_ne_nil (splitU_ne_nil y)
    simp [splitU, hw]
  | cons c cs ih =>
    obtain ⟨w, ws, hw⟩ := List.exists_cons_of_ne_nil (splitU_ne_nil cs)
    have ih' : splitU (cs ++ '_' :: y) = w :: (ws ++ splitU y) := by
      rw [ih, hw]
      rfl
    rw [List.cons_append, splitU_cons c _ _ _ ih', splitU_cons c _ _ _ hw]
    split <;> simp

/-- Two-word-or-more join step. -/
theorem joinU_cons_cons (w x : List Char) (xs : List (List Char)) :
    joinU (w :: x :: xs) = w ++ '_' :: joinU (x :: xs) := rfl

/-- A first character moves through the join. -/
theorem joinU_cons_char (c : Char) (w : List Char) (ws : List (List Char)) :
    joinU ((c :: w) :: ws) = c :: joinU (w :: ws) := by
  cases ws with
  | nil => rfl
  | cons x xs => rfl

/-- Python `"_".join(key.split("_")) == key`. -/
theorem joinU_splitU (l : List Char) : joinU (splitU l) = l := by
  induction l with
  | nil => rfl
  | cons c cs ih =>
    obtain ⟨w, ws, hw⟩ := List.exists_cons_of_ne_nil (splitU_ne_nil cs)
    rw [hw] at ih
    by_cases hc : c = '_'
    · subst hc
      simp [splitU, hw, joinU_cons_cons, ih]
    · simp [splitU, hw, hc, joinU_cons_char, ih]

/-- Claim C6: for every triple in which the subject and video id contain no
underscore while the activity name may, `break_key` of `make_key`
reconstructs the original triple exactly. -/
theorem break_key_make_key (s a v : List Char) (hs : '_' ∉ s) (hv : '_' ∉ v) :
    break_key (make_key s a v) = (s, a, v) := by
  have hmk : make_key s a v = s ++ '_' :: (a ++ '_' :: v) := rfl
  have hsp : splitU (make_key s a v) = s :: (splitU a ++ [v]) := by
    rw [hmk, splitU_append, splitU_no_sep s hs, splitU_append, splitU_no_sep v hv]
    simp
  unfold break_key
  rw [hsp]
  simp only [List.headD_cons, List.drop_succ_cons, List.drop_zero, List.dropLast_concat,
    joinU_splitU]
  refine congrArg (fun z => (s, a, z)) ?_
  rw [← List.cons_append, List.getLastD_concat]

/-- Witness for C6: subject `S1`, activity `a_b` (contains the delimiter),
video `01`. -/
theorem break_key_make_key_witness :
    break_key (make_key ['S', '1'] ['a', '_', 'b'] ['0', '1']) =
      (['S', '1'], ['a', '_', 'b'], ['0', '1']) :=
  break_key_make_key ['S', '1'] ['a', '_', 'b'] ['0', '1'] (by decide) (by decide)

/-- Entries contributed by one `(subject, activity)` pair carry that pair's
names. -/
theorem pairEntries_names (files : String → String → Option (List LabelLine))
    (episode : Option (List String)) (subj sup : String) :
    ∀ e ∈ pairEntries files episode subj sup,
      e.subject_name = subj ∧ e.super_name = sup := by
  intro e he
  unfold pairEntries at he
  cases h : files subj sup with
  | none => rw [h] at he; simp at he
  | some lines =>
    rw [h] at he
    simp only [List.mem_map] at he
    obtain ⟨p, hp, rfl⟩ := he
    exact ⟨rfl, rfl⟩

/-- Claim C8: a missing `labeling.txt` for one `(subject, activity)` pair is
non-fatal for `__read_sub_times`: the result equals the one obtained had the
file been present and empty — that pair contributes no entries, and every
other pair is processed unchanged (no exception escapes). -/
theorem read_sub_times_missing_file (files : String → String → Option (List LabelLine))
    (subjects supers : List String) (episode : Option (List String)) (s a : String)
    (h : files s a = none) :
    read_sub_times files subjects supers episode =
      read_sub_times (fun s' a' => if s' = s ∧ a' = a then some [] else files s' a')
        subjects supers episode ∧
    ∀ e ∈ read_sub_times files subjects supers episode,
      ¬(e.subject_name = s ∧ e.super_name = a) := by
  constructor
  · unfold read_sub_times
    refine List.flatMap_congr ?_
    intro subj _
    refine List.flatMap_congr ?_
    intro sup _
    by_cases hsa : subj = s ∧ sup = a
    · obtain ⟨rfl, rfl⟩ := hsa
      unfold pairEntries
      rw [h]
      simp [readPairLines]
    · unfold pairEntries
      simp only [if_neg hsa]
  · intro e he hcon
    unfold read_sub_times at he
    simp only [List.mem_flatMap] at he
    obtain ⟨subj, _, sup, _, hin⟩ := he
    obtain ⟨h1, h2⟩ := pairEntries_names files episode subj sup e hin
    have hs' : subj = s := by rw [← h1]; exact hcon.1
    have ha' : sup = a := by rw [← h2]; exact hcon.2
    subst hs'
    subst ha'
    unfold pairEntries at hin
    rw [h] at hin
    simp at hin

/-- Witness for C8: one subject, two activities, the second activity's
label file missing. -/
theorem read_sub_times_missing_file_witness :
    (read_sub_times
        (fun _ a' => if a' = "having_meal" then none
          else some [⟨"0510175411", 1, 5, "reaching"⟩])
        ["Subject1"] ["making_cereal", "having_meal"] none =
      read_sub_times
        (fun s' a' => if s' = "Subject1" ∧ a' = "having_meal" then some []
          else if a' = "having_meal" then none
          else some [⟨"0510175411", 1, 5, "reaching"⟩])
        ["Subject1"] ["making_cereal", "having_meal"] none) ∧
    ∀ e ∈ read_sub_times
        (fun _ a' => if a' = "having_meal" then none
          else some [⟨"0510175411", 1, 5, "reaching"⟩])
        ["Subject1"] ["making_cereal", "having_meal"] none,
      ¬(e.subject_name = "Subject1" ∧ e.super_name = "having_meal") :=
  read_sub_times_missing_file
    (fun _ a' => if a' = "having_meal" then none
      else some [⟨"0510175411", 1, 5, "reaching"⟩])
    ["Subject1"] ["making_cereal", "having_meal"] none "Subject1" "having_meal"
    (by decide)

/-- Storing at a key makes it present with the stored value. -/
theorem getA_setA_self {α β : Type} [DecidableEq α] (m : List (α × β)) (a : α) (b : β) :
    getA (setA m a b) a = some b := by
  induction m with
  | nil => simp [setA, getA]
  | cons p m ih =>
    obtain ⟨a', b'⟩ := p
    by_cases h : a' = a
    · simp [setA, h, getA]
    · simp [setA, h, getA, ih]

/-- Storing at a key leaves every other key unchanged. -/
theorem getA_setA_ne {α β : Type} [DecidableEq α] (m : List (α × β)) (a k : α) (b : β)
    (hk : k ≠ a) : getA (setA m a b) k = getA m k := by
  induction m with
  | nil => simp [setA, getA, Ne.symm hk]
  | cons p m ih =>
    obtain ⟨a', b'⟩ := p
    by_cases h : a' = a
    · subst h
      simp [setA, getA, Ne.symm hk]
    · by_cases h2 : a' = k
      · simp [setA, h, getA, h2, hk]
      · simp [setA, h, getA, h2, ih]

/-- Unfolding `lookup2` when the timestamp is present. -/
theorem lookup2_of_getA (wt : List (String × WorldState)) (t s : String) (ws : WorldState)
    (hws : getA wt t = some ws) : lookup2 wt t s = getA ws s := by
  unfold lookup2
  rw [hws]

/-- Helper `fillJoint` writes at most at the current timestamp. -/
theorem fillJoint_getA_ne (wt : List (String × WorldState)) (ts : List String) (i : ℕ)
    (t s : String) (wt' : List (String × WorldState)) (st : ObjState)
    (hok : fillJoint wt ts i t s = .ok (wt', st)) (k : String) (hk : k ≠ t) :
    getA wt' k = getA wt k := by
  unfold fillJoint at hok
  split at hok
  · exact absurd hok (by simp)
  · split at hok
    · simp only [Except.ok.injEq, Prod.mk.injEq] at hok
      rw [← hok.1]
    · split at hok
      · exact absurd hok (by simp)
      · split at hok
        · exact absurd hok (by simp)
        · split at hok
          · exact absurd hok (by simp)
          · simp only [Except.ok.injEq, Prod.mk.injEq] at hok
            rw [← hok.1, getA_setA_ne _ _ _ _ hk]

/-- Helper `fillJoint` never removes or overwrites an existing entity state. -/
theorem fillJoint_preserve (wt : List (String × WorldState)) (ts : List String) (i : ℕ)
    (t s : String) (wt' : List (String × WorldState)) (st : ObjState)
    (k s₁ : String) (v : ObjState) (hv : lookup2 wt k s₁ = some v)
    (hok : fillJoint wt ts i t s = .ok (wt', st)) :
    lookup2 wt' k s₁ = some v := by
  unfold fillJoint at hok
  split at hok
  · exact absurd hok (by simp)
  case _ ws hws =>
    split at hok
    · simp only [Except.ok.injEq, Prod.mk.injEq] at hok
      rw [← hok.1]
      exact hv
    case _ habs =>
      split at hok
      · exact absurd hok (by simp)
      case _ pt hpt =>
        split at hok
        · exact absurd hok (by simp)
        case _ pws hpws =>
          split at hok
          · exact absurd hok (by simp)
          case _ pst hpst =>
            simp only [Except.ok.injEq, Prod.mk.injEq] at hok
            obtain ⟨hwt', hst⟩ := hok
            subst hwt'
            by_cases hk : k = t
            · subst hk
              have hvs : getA ws s₁ = some v := by
                rw [lookup2_of_getA _ _ _ _ hws] at hv
                exact hv
              have hs₁ : s₁ ≠ s := by
                intro hss
                rw [hss, habs] at hvs
                exact Option.noConfusion hvs
              rw [lookup2_of_getA _ _ _ _ (getA_setA_self wt k (setA ws s pst)),
                getA_setA_ne _ _ _ _ hs₁]
              exact hvs
            · unfold lookup2 at hv ⊢
              rw [getA_setA_ne _ _ _ _ hk]
              exact hv

/-- Helper `fillJoint` for one joint does not create a different, still-absent
joint at the current timestamp. -/
theorem fillJoint_absent (wt : List (String × WorldState)) (ts : List String) (i : ℕ)
    (t s s₁ : String) (wt' : List (String × WorldState)) (st : ObjState)
    (habs₁ : lookup2 wt t s₁ = none) (hne : s₁ ≠ s)
    (hok : fillJoint wt ts i t s = .ok (wt', st)) :
    lookup2 wt' t s₁ = none := by
  unfold fillJoint at hok
  split at hok
  · exact absurd hok (by simp)
  case _ ws hws =>
    split at hok
    · simp only [Except.ok.injEq, Prod.mk.injEq] at hok
      rw [← hok.1]
      exact habs₁
    case _ habs =>
      split at hok
      · exact absurd hok (by simp)
      case _ pt hpt =>
        split at hok
        · exact absurd hok (by simp)
        case _ pws hpws =>
          split at hok
          · exact absurd hok (by simp)
          case _ pst hpst =>
            simp only [Except.ok.injEq, Prod.mk.injEq] at hok
            obtain ⟨hwt', hst⟩ := hok
            subst hwt'
            rw [lookup2_of_getA _ _ _ _ hws] at habs₁
            rw [lookup2_of_getA _ _ _ _ (getA_setA_self wt t (setA ws s pst)),
              getA_setA_ne _ _ _ _ hne]
            exact habs₁

/-- When the joint is absent at the current timestamp, `fillJoint` computes
the write of the previous timestamp's state. -/
theorem fillJoint_fill (wt : List (String × WorldState)) (ts : List String) (i : ℕ)
    (t s pt : String) (ws pws : WorldState) (pst : ObjState)
    (hws : getA wt t = some ws) (habs : getA ws s = none)
    (hi : i ≠ 0) (hpt : ts[i - 1]? = some pt)
    (hpws : getA wt pt = some pws) (hpst : getA pws s = some pst) :
    fillJoint wt ts i t s = .ok (setA wt t (setA ws s pst), pst) := by
  simp [fillJoint, hws, habs, hi, hpt, hpws, hpst]

/-- Helper `fillJoint` keeps the current timestamp's entry present. -/
theorem fillJoint_isSome (wt : List (String × WorldState)) (ts : List String) (i : ℕ)
    (t s : String) (wt' : List (String × WorldState)) (st : ObjState)
    (hok : fillJoint wt ts i t s = .ok (wt', st)) (hsome : (getA wt t).isSome) :
    (getA wt' t).isSome := by
  unfold fillJoint at hok
  split at hok
  · exact absurd hok (by simp)
  case _ ws hws =>
    split at hok
    · simp only [Except.ok.injEq, Prod.mk.injEq] at hok
      rw [← hok.1]
      exact hsome
    · split at hok
      · exact absurd hok (by simp)
      · split at hok
        · exact absurd hok (by simp)
        · split at hok
          · exact absurd hok (by simp)
          · simp only [Except.ok.injEq, Prod.mk.injEq] at hok
            rw [← hok.1, getA_setA_self]
            rfl

/-- Helper `jointPass` writes at most at the current timestamp. -/
theorem jointPass_getA_ne (ts : List String) (i : ℕ) (t : String) :
    ∀ (fs : List String) (wt : List (String × WorldState))
      (ret : List (String × List (ℚ × ℚ))) (wt' : List (String × WorldState))
      (ret' : List (String × List (ℚ × ℚ))),
      jointPass ts i t fs wt ret = .ok (wt', ret') →
      ∀ k, k ≠ t → getA wt' k = getA wt k
  | [], wt, ret, wt', ret', hok, k, hk => by
    simp only [jointPass, Except.ok.injEq, Prod.mk.injEq] at hok
    rw [← hok.1]
  | s :: ss, wt, ret, wt', ret', hok, k, hk => by
    unfold jointPass at hok
    split at hok
    · exact absurd hok (by simp)
    case _ wt₁ st₁ hfill =>
      rw [jointPass_getA_ne ts i t ss wt₁ _ wt' ret' hok k hk,
        fillJoint_getA_ne wt ts i t s wt₁ st₁ hfill k hk]

/-- Helper `jointPass` never removes or overwrites an existing entity state. -/
theorem jointPass_preserve (ts : List String) (i : ℕ) (t : String) :
    ∀ (fs : List String) (wt : List (String × WorldState))
      (ret : List (String × List (ℚ × ℚ))) (wt' : List (String × WorldState))
      (ret' : List (String × List (ℚ × ℚ))) (k s₁ : String) (v : ObjState),
      lookup2 wt k s₁ = some v →
      jointPass ts i t fs wt ret = .ok (wt', ret') →
      lookup2 wt' k s₁ = some v
  | [], wt, ret, wt', ret', k, s₁, v, hv, hok => by
    simp only [jointPass, Except.ok.injEq, Prod.mk.injEq] at hok
    rw [← hok.1]
    exact hv
  | s :: ss, wt, ret, wt', ret', k, s₁, v, hv, hok => by
    unfold jointPass at hok
    split at hok
    · exact absurd hok (by simp)
    case _ wt₁ st₁ hfill =>
      exact jointPass_preserve ts i t ss wt₁ _ wt' ret' k s₁ v
        (fillJoint_preserve wt ts i t s wt₁ st₁ k s₁ v hv hfill) hok

/-- During the pass over the filter at timestamp `t`, the first time the
missing joint `s` is reached it gets filled with the state found at `pt`,
and the fill survives the rest of the pass. -/
theorem jointPass_fills (ts : List String) (i : ℕ) (t pt : String) (hi : i ≠ 0)
    (hpt : ts[i - 1]? = some pt) (hne : pt ≠ t) :
    ∀ (fs : List String) (s : String) (wt : List (String × WorldState))
      (ret : List (String × List (ℚ × ℚ))) (wt' : List (String × WorldState))
      (ret' : List (String × List (ℚ × ℚ))) (st : ObjState),
      s ∈ fs →
      (getA wt t).isSome →
      lookup2 wt t s = none →
      lookup2 wt pt s = some st →
      jointPass ts i t fs wt ret = .ok (wt', ret') →
      lookup2 wt' t s = some st
  | [], s, wt, ret, wt', ret', st, hmem, _, _, _, _ => absurd hmem (by simp)
  | s₀ :: ss, s, wt, ret, wt', ret', st, hmem, hsome, habs, hprev, hok => by
    unfold jointPass at hok
    split at hok
    · exact absurd hok (by simp)
    case _ wt₁ st₁ hfill =>
      by_cases hs₀ : s₀ = s
      · subst hs₀
        obtain ⟨ws, hws⟩ := Option.isSome_iff_exists.mp hsome
        have habs' : getA ws s₀ = none := by
          rw [lookup2_of_getA _ _ _ _ hws] at habs
          exact habs
        obtain ⟨pws, hpws, hpst⟩ : ∃ pws, getA wt pt = some pws ∧ getA pws s₀ = some st := by
          unfold lookup2 at hprev
          cases hg : getA wt pt with
          | none => rw [hg] at hprev; exact Option.noConfusion hprev
          | some pws => rw [hg] at hprev; exact ⟨pws, rfl, hprev⟩
        rw [fillJoint_fill wt ts i t s₀ pt ws pws st hws habs' hi hpt hpws hpst] at hfill
        simp only [Except.ok.injEq, Prod.mk.injEq] at hfill
        obtain ⟨hwt₁, hst⟩ := hfill
        have h1 : getA wt₁ t = some (setA ws s₀ st) := by
          rw [← hwt₁]
          exact getA_setA_self _ _ _
        have hfilled : lookup2 wt₁ t s₀ = some st := by
          rw [lookup2_of_getA _ _ _ _ h1]
          exact getA_setA_self _ _ _
        exact jointPass_preserve ts i t ss wt₁ _ wt' ret' t s₀ st hfilled hok
      · have hmem' : s ∈ ss := by
          cases List.mem_cons.mp hmem with
          | inl h => exact absurd h.symm hs₀
          | inr h => exact h
        have hsome₁ : (getA wt₁ t).isSome :=
          fillJoint_isSome wt ts i t s₀ wt₁ st₁ hfill hsome
        have habs₁ : lookup2 wt₁ t s = none :=
          fillJoint_absent wt ts i t s₀ s wt₁ st₁ habs (fun h => hs₀ h.symm) hfill
        have hprev₁ : lookup2 wt₁ pt s = some st := by
          unfold lookup2 at hprev ⊢
          rw [fillJoint_getA_ne wt ts i t s₀ wt₁ st₁ hfill pt hne]
          exact hprev
        exact jointPass_fills ts i t pt hi hpt hne ss s wt₁ _ wt' ret' st hmem' hsome₁
          habs₁ hprev₁ hok

/-- A key listed in the map's key list has a value. -/
theorem getA_isSome_of_mem_keys {β : Type} (l : List (String × β)) (t : String)
    (h : t ∈ l.map Prod.fst) : (getA l t).isSome := by
  induction l with
  | nil => simp at h
  | cons p l ih =>
    obtain ⟨a, b⟩ := p
    by_cases ha : a = t
    · simp [getA, ha]
    · simp only [List.map_cons, List.mem_cons] at h
      cases h with
      | inl h => exact absurd h.symm ha
      | inr h => simpa [getA, ha] using ih h

/-- Helper `tsLoop` writes only at the timestamps it still has to process. -/
theorem tsLoop_getA_ne (pf ts : List String) :
    ∀ (rest : List String) (i : ℕ) (wt : List (String × WorldState))
      (ret : List (String × List (ℚ × ℚ))) (wt' : List (String × WorldState))
      (ret' : List (String × List (ℚ × ℚ))),
      tsLoop pf ts i rest wt ret = .ok (wt', ret') →
      ∀ k, (∀ u ∈ rest, u ≠ k) → getA wt' k = getA wt k
  | [], i, wt, ret, wt', ret', hok, k, hk => by
    simp only [tsLoop, Except.ok.injEq, Prod.mk.injEq] at hok
    rw [← hok.1]
  | t :: rest, i, wt, ret, wt', ret', hok, k, hk => by
    unfold tsLoop at hok
    split at hok
    · exact absurd hok (by simp)
    case _ wt₁ ret₁ hpass =>
      rw [tsLoop_getA_ne pf ts rest (i + 1) wt₁ ret₁ wt' ret' hok k
          (fun u hu => hk u (List.mem_cons_of_mem t hu)),
        jointPass_getA_ne ts i t pf wt ret wt₁ ret₁ hpass k (hk t (by simp)).symm]

/-- Helper `tsLoop` never removes or overwrites an existing entity state. -/
theorem tsLoop_preserve (pf ts : List String) :
    ∀ (rest : List String) (i : ℕ) (wt : List (String × WorldState))
      (ret : List (String × List (ℚ × ℚ))) (wt' : List (String × WorldState))
      (ret' : List (String × List (ℚ × ℚ))) (k s₁ : String) (v : ObjState),
      lookup2 wt k s₁ = some v →
      tsLoop pf ts i rest wt ret = .ok (wt', ret') →
      lookup2 wt' k s₁ = some v
  | [], i, wt, ret, wt', ret', k, s₁, v, hv, hok => by
    simp only [tsLoop, Except.ok.injEq, Prod.mk.injEq] at hok
    rw [← hok.1]
    exact hv
  | t :: rest, i, wt, ret, wt', ret', k, s₁, v, hv, hok => by
    unfold tsLoop at hok
    split at hok
    · exact absurd hok (by simp)
    case _ wt₁ ret₁ hpass =>
      exact tsLoop_preserve pf ts rest (i + 1) wt₁ ret₁ wt' ret' k s₁ v
        (jointPass_preserve ts i t pf wt ret wt₁ ret₁ k s₁ v hv hpass) hok

/-- Splitting the timestamp walk at a concatenation. -/
theorem tsLoop_append (pf ts : List String) :
    ∀ (a b : List String) (i : ℕ) (wt : List (String × WorldState))
      (ret : List (String × List (ℚ × ℚ))),
      tsLoop pf ts i (a ++ b) wt ret =
        match tsLoop pf ts i a wt ret with
        | .error e => .error e
        | .ok (wt₁, ret₁) => tsLoop pf ts (i + a.length) b wt₁ ret₁
  | [], b, i, wt, ret => by simp [tsLoop]
  | t :: a, b, i, wt, ret => by
    simp only [List.cons_append]
    cases hjp : jointPass ts i t pf wt ret with
    | error e =>
      show (match jointPass ts i t pf wt ret with
        | .error e => Except.error e
        | .ok (wt₂, ret₂) => tsLoop pf ts (i + 1) (a ++ b) wt₂ ret₂) =
        match (match jointPass ts i t pf wt ret with
          | .error e => Except.error e
          | .ok (wt₂, ret₂) => tsLoop pf ts (i + 1) a wt₂ ret₂) with
        | .error e => Except.error e
        | .ok (wt₂, ret₂) => tsLoop pf ts (i + (t :: a).length) b wt₂ ret₂
      rw [hjp]
    | ok p =>
      obtain ⟨wt₁, ret₁⟩ := p
      show (match jointPass ts i t pf wt ret with
        | .error e => Except.error e
        | .ok (wt₂, ret₂) => tsLoop pf ts (i + 1) (a ++ b) wt₂ ret₂) =
        match (match jointPass ts i t pf wt ret with
          | .error e => Except.error e
          | .ok (wt₂, ret₂) => tsLoop pf ts (i + 1) a wt₂ ret₂) with
        | .error e => Except.error e
        | .ok (wt₂, ret₂) => tsLoop pf ts (i + (t :: a).length) b wt₂ ret₂
      rw [hjp]
      show tsLoop pf ts (i + 1) (a ++ b) wt₁ ret₁ =
        match tsLoop pf ts (i + 1) a wt₁ ret₁ with
        | .error e => Except.error e
        | .ok (wt₂, ret₂) => tsLoop pf ts (i + (t :: a).length) b wt₂ ret₂
      have harith : i + (t :: a).length = i + 1 + a.length := by
        simp [List.length_cons]
        omega
      rw [tsLoop_append pf ts a b (i + 1) wt₁ ret₁, harith]

/-- Claim C10: `world_skeleton_trace_to_dict` is not read-only. When a
pass-filter joint `s` is absent from the stored trace at the `i`-th sorted
timestamp `t` (`1 ≤ i`) but present with state `st` at the previous
timestamp `pt`, a successful call returns a trace in which the joint has
been written at `t` with the previous timestamp's state `st`: a subsequent
lookup on the trace left in `self.world_traces` observes the filled-in
state rather than an absence. -/
theorem world_skeleton_trace_to_dict_fills (pass_filter : List String)
    (wt0 : WorldTraceM) (i : ℕ) (s t pt : String) (st : ObjState)
    (wt' : WorldTraceM) (ret : List (String × List (ℚ × ℚ)))
    (hnodup : (wt0.trace.map Prod.fst).Nodup) (hi : 1 ≤ i)
    (ht : (wt0.trace.map Prod.fst)[i]? = some t)
    (hpt : (wt0.trace.map Prod.fst)[i - 1]? = some pt)
    (hs : s ∈ pass_filter)
    (habsent : lookup2 wt0.trace t s = none)
    (hprev : lookup2 wt0.trace pt s = some st)
    (hok : world_skeleton_trace_to_dict pass_filter wt0 = .ok (wt', ret)) :
    lookup2 wt'.trace t s = some st := by
  set ts := wt0.trace.map Prod.fst with hts
  obtain ⟨hlen, htg⟩ := List.getElem?_eq_some.mp ht
  have hne : pt ≠ t := by
    intro he
    subst he
    have : i - 1 = i := List.getElem?_inj (by omega) hnodup (by rw [hpt, ht])
    omega
  have hsplit : ts = ts.take i ++ t :: ts.drop (i + 1) := by
    conv_lhs => rw [← List.take_append_drop i ts]
    rw [List.drop_eq_getElem_cons hlen, htg]
  unfold world_skeleton_trace_to_dict at hok
  rw [← hts] at hok
  have hok' : Except.map (fun p => ((⟨p.1⟩ : WorldTraceM), p.2))
      (tsLoop pass_filter ts 0 ts wt0.trace
        (List.map (fun s => (s, ([] : List (ℚ × ℚ)))) pass_filter)) = .ok (wt', ret) := hok
  clear hok
  cases hrun : tsLoop pass_filter ts 0 ts wt0.trace
      (pass_filter.map fun s => (s, ([] : List (ℚ × ℚ)))) with
  | error e =>
    rw [hrun] at hok'
    exact absurd hok' (by simp [Except.map])
  | ok p =>
    obtain ⟨wtC, retC⟩ := p
    rw [hrun] at hok'
    simp only [Except.map, Except.ok.injEq, Prod.mk.injEq] at hok'
    have hwt' : wt'.trace = wtC := by rw [← hok'.1]
    have hrun' : tsLoop pass_filter ts 0 (ts.take i ++ t :: ts.drop (i + 1)) wt0.trace
        (pass_filter.map fun s => (s, ([] : List (ℚ × ℚ)))) = .ok (wtC, retC) := by
      rw [← hsplit]
      exact hrun
    rw [tsLoop_append pass_filter ts (ts.take i) (t :: ts.drop (i + 1)) 0 wt0.trace
      (pass_filter.map fun s => (s, ([] : List (ℚ × ℚ))))] at hrun'
    cases hphase1 : tsLoop pass_filter ts 0 (ts.take i) wt0.trace
        (pass_filter.map fun s => (s, ([] : List (ℚ × ℚ)))) with
    | error e =>
      rw [hphase1] at hrun'
      exact absurd hrun' (by simp)
    | ok q =>
      obtain ⟨wtA, retA⟩ := q
      rw [hphase1] at hrun'
      have hlen_take : (ts.take i).length = i := by
        rw [List.length_take]
        omega
      rw [hlen_take, Nat.zero_add] at hrun'
      have hktake : ∀ u ∈ ts.take i, u ≠ t := by
        intro u hu hut
        obtain ⟨j, hj, hju⟩ := List.mem_iff_getElem.mp hu
        have hji : j < i := by
          rw [List.length_take] at hj
          omega
        have hjlen : j < ts.length := by omega
        have hjt : ts[j] = ts[i] := by
          rw [← List.getElem_take ts, hju, hut, htg]
        have := (hnodup.getElem_inj_iff).mp hjt
        omega
      have hA1 : getA wtA t = getA wt0.trace t :=
        tsLoop_getA_ne pass_filter ts (ts.take i) 0 wt0.trace _ wtA retA hphase1 t hktake
      have hA2 : lookup2 wtA pt s = some st :=
        tsLoop_preserve pass_filter ts (ts.take i) 0 wt0.trace _ wtA retA pt s st
          hprev hphase1
      have hmem_t : t ∈ ts := htg ▸ List.getElem_mem hlen
      have hsomeA : (getA wtA t).isSome := by
        rw [hA1]
        exact getA_isSome_of_mem_keys wt0.trace t hmem_t
      have habsA : lookup2 wtA t s = none := by
        unfold lookup2 at habsent ⊢
        rw [hA1]
        exact habsent
      unfold tsLoop at hrun'
      split at hrun'
      · exact absurd hrun' (by simp)
      case _ wtB retB hpass =>
        have hfillB : lookup2 wtB t s = some st :=
          jointPass_fills ts i t pt (by omega) hpt hne pass_filter s wtA _ wtB retB st
            hs hsomeA habsA hA2 hpass
        have hfinal : lookup2 wtC t s = some st :=
          tsLoop_preserve pass_filter ts (ts.drop (i + 1)) (i + 1) wtB _ wtC retC t s st
            hfillB hrun'
        rw [hwt']
        exact hfinal

/-- Witness for C10: a two-timestamp trace whose joint `H` is present at
timestamp `1` and absent at timestamp `2`; after the call the stored trace
has `H` at timestamp `2` with the state from timestamp `1`. -/
theorem world_skeleton_trace_to_dict_fills_witness :
    lookup2 [("1", [("H", ⟨1, 2⟩)]), ("2", [("H", ⟨1, 2⟩)])] "2" "H" =
      some ⟨1, 2⟩ :=
  world_skeleton_trace_to_dict_fills ["H"]
    ⟨[("1", [("H", ⟨1, 2⟩)]), ("2", [])]⟩ 1 "H" "2" "1" ⟨1, 2⟩
    ⟨[("1", [("H", ⟨1, 2⟩)]), ("2", [("H", ⟨1, 2⟩)])]⟩ [("H", [(1, 2), (1, 2)])]
    (by decide) (by decide) (by decide) (by decide) (by decide)
    (by decide) (by decide) rfl

end CAD120
